import Mathlib

/- Verification development for the retrieval pipeline of a RAG chatbot
   server.  The Python sources are shallowly embedded: Python strings
   become `List Char`, Python dicts become association lists with
   overwrite-on-insert and remove-on-delete semantics, numeric vectors
   become `List Rat`.  Embedded code:
   - `TextSplitter.split_text` and `DocumentProcessor.process_text_content`
     (server/utils/document_processor.py),
   - `FAISSVectorStore.add_documents`, `similarity_search`,
     `delete_document`, `load_index` (server/utils/vectorstore.py),
   - `RAGSystem.add_text_content` and `retrieve_context`
     (server/ai/qa_rag.py). -/

/-- Python whitespace as stripped by `str.strip()`; `Char.isWhitespace`
    plus the vertical-tab and form-feed characters. -/
def pyIsSpace (c : Char) : Bool :=
  c.isWhitespace || c = '\x0b' || c = '\x0c'

/-- Left half of Python `str.strip()`: drop leading whitespace. -/
def lstrip (l : List Char) : List Char := l.dropWhile pyIsSpace

/-- Right half of Python `str.strip()`: drop trailing whitespace. -/
def rstrip (l : List Char) : List Char := (l.reverse.dropWhile pyIsSpace).reverse

/-- Python `str.strip()`: drop leading and trailing whitespace. -/
def strip (l : List Char) : List Char := rstrip (lstrip l)

/-- Does `sub` occur in `text` at position `i`?  (Python substring test.) -/
def matchesAt (text sub : List Char) (i : Nat) : Bool :=
  decide ((text.drop i).take sub.length = sub)

/-- Python `text.rfind(sub, s, e)`: the highest `i` with `s ≤ i`,
    `i + len(sub) ≤ min e (len text)`, and `sub` occurring at `i`;
    `none` where Python returns `-1`.  For `sub = ""` this returns the
    clamped upper bound, exactly as Python does. -/
def rfind (text sub : List Char) (s e : Nat) : Option Nat :=
  ((List.range (min e text.length + 1)).filter
    (fun i => decide (s ≤ i) && decide (i + sub.length ≤ min e text.length)
      && matchesAt text sub i)).getLast?

/-- Configuration of `TextSplitter`: `chunk_size`, `chunk_overlap`,
    `separator`. -/
structure SplitCfg where
  chunkSize : Nat
  overlap : Nat
  sep : List Char
deriving DecidableEq

/-- The defaults of `TextSplitter.__init__` used by the global
    `DocumentProcessor`: chunk_size 1000, chunk_overlap 200, separator
    a blank line. -/
def defaultCfg : SplitCfg := ⟨1000, 200, ['\n', '\n']⟩

/-- The cut position chosen for the window starting at `start`
    (`TextSplitter.split_text`, document_processor.py lines 68-82):
    `end = start + chunk_size`; if `end < len(text)`, search backward for
    the separator, then for a period, then for a space, and on total
    failure set the break point to `end` itself; the chosen break point
    is then advanced by one (`end = break_point + 1`). -/
def cutEnd (cfg : SplitCfg) (text : List Char) (start : Nat) : Nat :=
  let e0 := start + cfg.chunkSize
  if e0 < text.length then
    match rfind text cfg.sep start e0 with
    | some bp => bp + 1
    | none =>
      match rfind text ['.'] start e0 with
      | some bp => bp + 1
      | none =>
        match rfind text [' '] start e0 with
        | some bp => bp + 1
        | none => e0 + 1
  else e0

/-- `start = max(start + 1, end - self.chunk_overlap)`
    (document_processor.py line 89).  Over `Nat` the truncated
    subtraction agrees with Python, because a negative right argument is
    dominated by `start + 1` in the maximum. -/
def nextStart (cfg : SplitCfg) (text : List Char) (start : Nat) : Nat :=
  max (start + 1) (cutEnd cfg text start - cfg.overlap)

/-- The `while start < len(text)` loop of `split_text`
    (document_processor.py lines 67-89), written with an explicit gas
    argument so that the definition is structurally recursive and
    kernel-evaluable.  `splitGo_gas_stable` below shows the gas used by
    `splitLoop` is sufficient: the loop stops because `start` reached the
    end of the text, never because gas ran out. -/
def splitGo (cfg : SplitCfg) (text : List Char) : Nat → Nat → List (List Char)
  | 0, _ => []
  | gas + 1, start =>
    if start < text.length then
      let chunk := strip ((text.drop start).take (cutEnd cfg text start - start))
      let rest := splitGo cfg text gas (nextStart cfg text start)
      if chunk = [] then rest else chunk :: rest
    else []

/-- The chunking loop entered with enough gas for every iteration. -/
def splitLoop (cfg : SplitCfg) (text : List Char) (start : Nat) : List (List Char) :=
  splitGo cfg text (text.length - start) start

/-- `TextSplitter.split_text` (document_processor.py lines 59-91): a text
    no longer than `chunk_size` is returned whole, as a single chunk,
    with no trimming and no emptiness check. -/
def split_text (cfg : SplitCfg) (text : List Char) : List (List Char) :=
  if text.length ≤ cfg.chunkSize then [text] else splitLoop cfg text 0

/-- The successive window start positions visited by the loop, again with
    explicit gas. -/
def startsGo (cfg : SplitCfg) (text : List Char) : Nat → Nat → List Nat
  | 0, _ => []
  | gas + 1, start =>
    if start < text.length then
      start :: startsGo cfg text gas (nextStart cfg text start)
    else []

/-- Window start positions visited by `split_text` on a long input. -/
def splitStarts (cfg : SplitCfg) (text : List Char) (start : Nat) : List Nat :=
  startsGo cfg text (text.length - start) start

/-- Error raised by `RAGSystem.add_text_content` when chunking produced
    nothing (`raise ValueError("No content to process")`). -/
inductive IngestError
  | emptyContent
deriving DecidableEq

/-- `DocumentProcessor.process_text_content` (document_processor.py lines
    207-230): the chunk contents produced for raw text.  Chunk ids,
    timestamps and metadata dressing are dropped; only the contents feed
    the claims. -/
def process_text_content (cfg : SplitCfg) (content : List Char) : List (List Char) :=
  split_text cfg content

/-- `RAGSystem.add_text_content` (qa_rag.py lines 88-146): chunk the
    content, fail when the chunk list is empty, otherwise hand the chunk
    contents to the vector store. -/
def add_text_content (cfg : SplitCfg) (content : List Char) :
    Except IngestError (List (List Char)) :=
  let chunks := process_text_content cfg content
  if chunks.isEmpty then .error .emptyContent else .ok chunks

/-- A stored document: content plus metadata, the fields of
    `vectorstore.Document` that the claims touch.  Metadata values are
    embedded as strings; the claims never depend on their type. -/
structure DocRec where
  content : List Char
  metadata : List (String × String)
deriving DecidableEq

/-- Python dict lookup on an association list. -/
def dictGet? {κ ν : Type} [DecidableEq κ] (m : List (κ × ν)) (k : κ) : Option ν :=
  (m.find? (fun p => decide (p.1 = k))).map (fun p => p.2)

/-- Python dict assignment: record the new binding, removing any earlier
    binding of the key. -/
def dictInsert {κ ν : Type} [DecidableEq κ] (m : List (κ × ν)) (k : κ) (v : ν) :
    List (κ × ν) :=
  (k, v) :: m.filter (fun p => decide (p.1 ≠ k))

/-- Python `del d[k]`. -/
def dictDelete {κ ν : Type} [DecidableEq κ] (m : List (κ × ν)) (k : κ) :
    List (κ × ν) :=
  m.filter (fun p => decide (p.1 ≠ k))

/-- State of `FAISSVectorStore` with the flat index variant, the one the
    `VectorStoreManager` constructs: the embedding dimension, the FAISS
    numeric store (an append-only list of vectors whose length is
    `index.ntotal`), the document map, both directions of the id-slot
    mapping, and `next_index`. -/
structure VectorStore where
  dimension : Nat
  store : List (List Rat)
  documents : List (String × DocRec)
  id_to_index : List (String × Nat)
  index_to_id : List (Nat × String)
  next_index : Nat
deriving DecidableEq

/-- A freshly constructed store: `__init__` with nothing on disk. -/
def initState (d : Nat) : VectorStore := ⟨d, [], [], [], [], 0⟩

/-- The failures `add_documents` can raise before mutating anything:
    the explicit count check (`ValueError`, vectorstore.py line 106), the
    numpy shape unpacking inside `faiss` `add` on an empty batch, and the
    `faiss` `add` dimension assertion (`assert d == self.d`) which a
    ragged batch also trips at `np.array` conversion. -/
inductive AddError
  | countMismatch
  | emptyBatch
  | dimMismatch
deriving DecidableEq

/-- Body of the storage loop (vectorstore.py lines 124-130): store the
    record and both mapping entries for one document at slot `pos`. -/
def storeDoc (s : VectorStore) (pos : Nat) (id : String) (d : DocRec) : VectorStore :=
  { s with documents := dictInsert s.documents id d,
           id_to_index := dictInsert s.id_to_index id pos,
           index_to_id := dictInsert s.index_to_id pos id }

/-- The storage loop over all documents, consecutive slots from `pos`. -/
def storeDocs (s : VectorStore) (pos : Nat) : List (String × DocRec) → VectorStore
  | [] => s
  | (id, d) :: rest => storeDocs (storeDoc s pos id d) (pos + 1) rest

/-- `FAISSVectorStore.add_documents` (vectorstore.py lines 103-134).  The
    result is the raised error, if any, together with the state at the
    point of the raise, so that leaving the index unchanged is a real
    statement about mutation order: the count check and the FAISS
    add failures all happen before the store, the maps or `next_index`
    are touched. -/
def add_documents (s : VectorStore) (docs : List (String × DocRec))
    (embs : List (List Rat)) : Option AddError × VectorStore :=
  if docs.length ≠ embs.length then (some .countMismatch, s)
  else if embs.isEmpty then (some .emptyBatch, s)
  else if embs.any (fun e => decide (e.length ≠ s.dimension)) then (some .dimMismatch, s)
  else
    let s1 := { s with store := s.store ++ embs }
    let s2 := storeDocs s1 s.next_index docs
    (none, { s2 with next_index := s.next_index + docs.length })

/-- `FAISSVectorStore.delete_document` (vectorstore.py lines 172-182):
    remove the record and, when present, both directions of the id-slot
    mapping; the numeric store is not touched. -/
def delete_document (s : VectorStore) (id : String) : Bool × VectorStore :=
  match dictGet? s.documents id with
  | some _ =>
    let s1 := { s with documents := dictDelete s.documents id }
    match dictGet? s.id_to_index id with
    | some pos =>
      (true, { s1 with id_to_index := dictDelete s1.id_to_index id,
                       index_to_id := dictDelete s1.index_to_id pos })
    | none => (true, s1)
  | none => (false, s)

/-- Squared Euclidean distance, the metric of FAISS `IndexFlatL2`. -/
def sqDist (a b : List Rat) : Rat :=
  ((a.zip b).map (fun p => (p.1 - p.2) * (p.1 - p.2))).sum

/-- FAISS flat search: score every slot, order by ascending distance
    (ties by slot number), return the first `min k ntotal`.  With this
    clamped `k` the flat index never reports the `-1` sentinel the
    Python loop skips, so slot numbers stay in `Nat`. -/
def faissSearch (store : List (List Rat)) (q : List Rat) (k : Nat) :
    List (Nat × Rat) :=
  ((store.enum.map (fun p => (p.1, sqDist q p.2))).mergeSort
    (fun a b => decide (a.2 < b.2 ∨ (a.2 = b.2 ∧ a.1 ≤ b.1)))).take
    (min k store.length)

/-- The metadata filter of `similarity_search`: every filter key must be
    present with exactly the filter value. -/
def metaMatches (md filterMd : List (String × String)) : Bool :=
  filterMd.all (fun p => dictGet? md p.1 == some p.2)

/-- `FAISSVectorStore.similarity_search` (vectorstore.py lines 136-166).
    Each nearest slot is resolved through `index_to_id` — a missing
    mapping is skipped, and so is a falsy (empty) id, because the code
    tests `if doc_id` — then through `documents`; the exact-match
    metadata filter is applied last, and an empty filter dict is falsy
    and therefore ignored.  A hit is `(doc id, record, distance)`. -/
def similarity_search (s : VectorStore) (q : List Rat) (k : Nat)
    (filterMd : List (String × String)) : List (String × DocRec × Rat) :=
  if s.store.length = 0 then []
  else
    (faissSearch s.store q k).filterMap (fun c =>
      match dictGet? s.index_to_id c.1 with
      | none => none
      | some docId =>
        if docId = "" then none
        else
          match dictGet? s.documents docId with
          | none => none
          | some doc =>
            if !filterMd.isEmpty && !metaMatches doc.metadata filterMd then none
            else some (docId, doc, c.2))

/-- A persisted artifact: absent from disk, present but unreadable, or
    readable with a payload. -/
inductive Artifact (α : Type)
  | missing
  | corrupt
  | ok (a : α)
deriving DecidableEq

/-- The metadata blob written by `save_index`, restricted to the fields
    `load_index` actually restores (it reads neither the saved dimension
    nor the saved index type back). -/
structure SavedMeta where
  documents : List (String × DocRec)
  id_to_index : List (String × Nat)
  index_to_id : List (Nat × String)
  next_index : Nat
deriving DecidableEq

/-- The persistence directory: the FAISS index file and the metadata
    pickle. -/
structure FS where
  indexFile : Artifact (List (List Rat))
  metaFile : Artifact SavedMeta
deriving DecidableEq

/-- `FAISSVectorStore.load_index` (vectorstore.py lines 220-249).
    Returns the state after the call and whether the `except` branch ran
    and logged its warning.  The `exists` check covers both files before
    anything is read, so a missing artifact is a silent no-op;
    `faiss.read_index` runs before the pickle is opened, so a readable
    index file followed by an unreadable pickle leaves the freshly read
    numeric store behind; every exception is caught. -/
def load_index (fs : FS) (s : VectorStore) : VectorStore × Bool :=
  match fs.indexFile, fs.metaFile with
  | .missing, _ => (s, false)
  | _, .missing => (s, false)
  | .corrupt, _ => (s, true)
  | .ok idx, .corrupt => ({ s with store := idx }, true)
  | .ok idx, .ok md =>
    ({ s with store := idx, documents := md.documents,
              id_to_index := md.id_to_index, index_to_id := md.index_to_id,
              next_index := md.next_index }, false)

/-- A source record of `retrieve_context`: content, similarity score,
    1-based rank. -/
abbrev Source := List Char × Rat × Nat

/-- The block label `f"[Document {i+1}]: "`, `i` the 0-based position. -/
def docLabel (i : Nat) : List Char :=
  ("[Document " ++ toString (i + 1) ++ "]: ").data

/-- The context-building loop of `RAGSystem.retrieve_context` (qa_rag.py
    lines 184-204), over (remaining hits, current position, running
    total): a hit whose full content would overflow the budget is either
    included as a truncated, ellipsis-terminated block — only when more
    than 100 characters of budget remain — or not at all, and the loop
    breaks either way; a fitting hit is appended whole and recorded as a
    source. -/
def assembleCore (maxLen : Nat) :
    List (List Char × Rat) → Nat → Nat → List (List Char) × List Source
  | [], _, _ => ([], [])
  | (content, score) :: rest, i, total =>
    if maxLen < total + content.length then
      let remaining := maxLen - total
      if 100 < remaining then
        ([docLabel i ++ content.take (remaining - 3) ++ ("...".data)], [])
      else ([], [])
    else
      let r := assembleCore maxLen rest (i + 1) (total + content.length)
      ((docLabel i ++ content) :: r.1, (content, score, i + 1) :: r.2)

/-- Context assembly (qa_rag.py lines 184-209): the blocks joined by a
    blank line, paired with the source records. -/
def assemble (hits : List (List Char × Rat)) (maxLen : Nat) :
    List Char × List Source :=
  let r := assembleCore maxLen hits 0 0
  (List.intercalate ("\n\n".data) r.1, r.2)

/-- `RAGSystem.retrieve_context` (qa_rag.py lines 148-213).  The
    embedding step and the vector search run inside the `try`; their
    failure is the `error` case, which the `except` handler turns into
    `("", [])`.  An empty hit list short-circuits to `("", [])` as well. -/
def retrieve_context (searchOutcome : Except String (List (List Char × Rat)))
    (maxLen : Nat) : List Char × List Source :=
  match searchOutcome with
  | .error _ => ([], [])
  | .ok results => if results.isEmpty then ([], []) else assemble results maxLen

/-- Number of leading hits the loop accepts whole, from a running total:
    the greedy prefix whose contents fit the budget. -/
def numFullAux (maxLen : Nat) : List (List Char × Rat) → Nat → Nat
  | [], _ => 0
  | (c, _) :: rest, total =>
    if maxLen < total + c.length then 0
    else numFullAux maxLen rest (total + c.length) + 1

/-- Number of hits accepted whole by `assemble`. -/
def numFull (maxLen : Nat) (hits : List (List Char × Rat)) : Nat :=
  numFullAux maxLen hits 0

/-- Characters consumed by a list of fully included hits. -/
def usedLen (hits : List (List Char × Rat)) : Nat :=
  (hits.map (fun h => h.1.length)).sum

/-- Labeled blocks of fully included hits, first position `i`. -/
def mkBlocks : List (List Char × Rat) → Nat → List (List Char)
  | [], _ => []
  | (c, _) :: rest, i => (docLabel i ++ c) :: mkBlocks rest (i + 1)

/-- Source records of fully included hits: content, score, rank `i+1`. -/
def mkSources : List (List Char × Rat) → Nat → List Source
  | [], _ => []
  | (c, sc) :: rest, i => (c, sc, i + 1) :: mkSources rest (i + 1)

/-- The at-most-one truncated block: present exactly when a hit remains
    beyond the `n` fully accepted ones and the leftover budget exceeds
    100 characters. -/
def elidedBlock (maxLen : Nat) (hits : List (List Char × Rat)) (n i total : Nat) :
    List (List Char) :=
  match hits.drop n with
  | [] => []
  | (c, _) :: _ =>
    let rem := maxLen - (total + usedLen (hits.take n))
    if 100 < rem then [docLabel (i + n) ++ c.take (rem - 3) ++ ("...".data)]
    else []

lemma mem_getLast? {α : Type} : ∀ {l : List α} {a : α}, l.getLast? = some a → a ∈ l
  | [], _, h => by simp at h
  | [x], a, h => by
    simp [List.getLast?] at h
    simp [h]
  | x :: y :: t, a, h => by
    rw [List.getLast?_cons_cons] at h
    exact List.mem_cons_of_mem _ (mem_getLast? h)

lemma dropWhile_dropWhile {α : Type} (p : α → Bool) (l : List α) :
    (l.dropWhile p).dropWhile p = l.dropWhile p := by
  induction l with
  | nil => rfl
  | cons a t ih =>
    cases h : p a with
    | true => simp [List.dropWhile_cons, h, ih]
    | false => simp [List.dropWhile_cons, h]

lemma exists_dropWhile_append {α : Type} (p : α → Bool) (l : List α) :
    ∃ u, l = u ++ l.dropWhile p := by
  induction l with
  | nil => exact ⟨[], rfl⟩
  | cons a t ih =>
    cases h : p a with
    | true =>
      obtain ⟨u, hu⟩ := ih
      exact ⟨a :: u, by simp [List.dropWhile_cons, h, ← hu]⟩
    | false => exact ⟨[], by simp [List.dropWhile_cons, h]⟩

lemma length_dropWhile_le {α : Type} (p : α → Bool) (l : List α) :
    (l.dropWhile p).length ≤ l.length := by
  induction l with
  | nil => simp
  | cons a t ih =>
    cases h : p a with
    | true => simp [List.dropWhile_cons, h]; omega
    | false => simp [List.dropWhile_cons, h]

lemma lstrip_idem (l : List Char) : lstrip (lstrip l) = lstrip l :=
  dropWhile_dropWhile pyIsSpace l

lemma rstrip_idem (l : List Char) : rstrip (rstrip l) = rstrip l := by
  simp [rstrip, dropWhile_dropWhile]

lemma head_false_of_lstrip_eq {a : Char} {t : List Char}
    (h : lstrip (a :: t) = a :: t) : pyIsSpace a = false := by
  cases hp : pyIsSpace a with
  | false => rfl
  | true =>
    exfalso
    have hlen := congrArg List.length h
    rw [lstrip, List.dropWhile_cons] at hlen
    simp [hp] at hlen
    have := length_dropWhile_le pyIsSpace t
    omega

lemma lstrip_rstrip (l : List Char) (h : lstrip l = l) :
    lstrip (rstrip l) = rstrip l := by
  obtain ⟨u, hu⟩ := exists_dropWhile_append pyIsSpace l.reverse
  have hl : l = rstrip l ++ u.reverse := by
    conv_lhs => rw [← l.reverse_reverse, hu]
    simp [rstrip]
  cases hr : rstrip l with
  | nil => simp [lstrip]
  | cons a t =>
    have hhead : pyIsSpace a = false := by
      rw [hr] at hl
      rw [hl] at h
      exact head_false_of_lstrip_eq (by simpa using h)
    simp [lstrip, List.dropWhile_cons, hhead]

lemma strip_idem (l : List Char) : strip (strip l) = strip l := by
  show rstrip (lstrip (rstrip (lstrip l))) = rstrip (lstrip l)
  rw [lstrip_rstrip (lstrip l) (lstrip_idem l), rstrip_idem]

lemma strip_length_le (l : List Char) : (strip l).length ≤ l.length := by
  have h1 := length_dropWhile_le pyIsSpace l
  have h2 := length_dropWhile_le pyIsSpace (lstrip l).reverse
  simp only [strip, rstrip, lstrip, List.length_reverse] at *
  omega

lemma rfind_le {text sub : List Char} {s e i : Nat}
    (h : rfind text sub s e = some i) : i ≤ min e text.length := by
  have hm := mem_getLast? h
  rw [List.mem_filter] at hm
  have := List.mem_range.mp hm.1
  omega

lemma cutEnd_le (cfg : SplitCfg) (text : List Char) (start : Nat) :
    cutEnd cfg text start ≤ start + cfg.chunkSize + 1 := by
  rw [cutEnd]
  by_cases h : start + cfg.chunkSize < text.length
  · rw [if_pos h]
    cases h1 : rfind text cfg.sep start (start + cfg.chunkSize) with
    | some bp => dsimp only; have := rfind_le h1; omega
    | none =>
      dsimp only
      cases h2 : rfind text ['.'] start (start + cfg.chunkSize) with
      | some bp => dsimp only; have := rfind_le h2; omega
      | none =>
        dsimp only
        cases h3 : rfind text [' '] start (start + cfg.chunkSize) with
        | some bp => dsimp only; have := rfind_le h3; omega
        | none => dsimp only; omega
  · rw [if_neg h]; omega

lemma mem_splitGo (cfg : SplitCfg) (text : List Char) (c : List Char) :
    ∀ gas start, c ∈ splitGo cfg text gas start →
      c ≠ [] ∧ ∃ s, c = strip ((text.drop s).take (cutEnd cfg text s - s)) := by
  intro gas
  induction gas with
  | zero => intro start h; simp [splitGo] at h
  | succ g ih =>
    intro start h
    simp only [splitGo] at h
    split at h
    · split at h
      · exact ih _ h
      · rcases List.mem_cons.mp h with rfl | hm
        · exact ⟨by assumption, start, rfl⟩
        · exact ih _ hm
    · simp at h

lemma splitGo_gas_stable (cfg : SplitCfg) (text : List Char) :
    ∀ g1 g2 start, text.length - start ≤ g1 → text.length - start ≤ g2 →
      splitGo cfg text g1 start = splitGo cfg text g2 start := by
  intro g1
  induction g1 with
  | zero =>
    intro g2 start h1 h2
    cases g2 with
    | zero => rfl
    | succ g =>
      simp only [splitGo]
      rw [if_neg (by omega)]
  | succ g ih =>
    intro g2 start h1 h2
    cases g2 with
    | zero =>
      simp only [splitGo]
      rw [if_neg (by omega)]
    | succ g2 =>
      simp only [splitGo]
      by_cases hs : start < text.length
      · rw [if_pos hs, if_pos hs]
        have hm : start + 1 ≤ nextStart cfg text start := le_max_left _ _
        rw [ih g2 (nextStart cfg text start) (by omega) (by omega)]
      · rw [if_neg hs, if_neg hs]

lemma startsGo_chain (cfg : SplitCfg) (text : List Char) :
    ∀ gas start, List.Chain'
      (fun a b => b = max (a + 1) (cutEnd cfg text a - cfg.overlap) ∧ a < b)
      (startsGo cfg text gas start) := by
  intro gas
  induction gas with
  | zero => intro start; simp [startsGo]
  | succ g ih =>
    intro start
    simp only [startsGo]
    split
    · rw [List.chain'_cons']
      refine ⟨?_, ih _⟩
      intro b hb
      cases g with
      | zero => simp [startsGo] at hb
      | succ g2 =>
        simp only [startsGo] at hb
        split at hb
        · simp only [List.head?_cons, Option.mem_some_iff] at hb
          subst hb
          constructor
          · rfl
          · have hm : start + 1 ≤ nextStart cfg text start := le_max_left _ _
            simp only [nextStart] at *
            omega
        · simp at hb
    · simp

/-- Claim C5 is false as stated: on separator-free, period-free,
    space-free input the code sets the break point to the window end and
    then cuts at `break_point + 1`, one character past the window
    boundary, so a chunk of length `chunk_size + 1` is emitted.  With
    chunk_size 3 and overlap 0, splitting `"aaaaa"` yields `"aaaa"`. -/
theorem chunk_length_counterexample :
    (split_text ⟨3, 0, ['\n', '\n']⟩ ['a', 'a', 'a', 'a', 'a']).all
      (fun c => decide (c.length ≤ 3)) = false := by decide

/-- Claim C5 (amended): every chunk emitted by `split_text` has length at
    most `chunk_size + 1`; in the hard-cut case the cut is made exactly
    one character past the window boundary, never further. -/
theorem chunk_length_le_succ (cfg : SplitCfg) (text : List Char)
    (h : 0 < cfg.chunkSize) :
    ∀ c ∈ split_text cfg text, c.length ≤ cfg.chunkSize + 1 := by
  intro c hc
  by_cases hlen : text.length ≤ cfg.chunkSize
  · rw [split_text, if_pos hlen] at hc
    simp only [List.mem_singleton] at hc
    subst hc
    omega
  · rw [split_text, if_neg hlen] at hc
    rw [splitLoop] at hc
    obtain ⟨hne, s, rfl⟩ := mem_splitGo cfg text c _ _ hc
    have h1 := strip_length_le ((text.drop s).take (cutEnd cfg text s - s))
    have h2 : ((text.drop s).take (cutEnd cfg text s - s)).length ≤
        cutEnd cfg text s - s := by
      rw [List.length_take]
      omega
    have h3 := cutEnd_le cfg text s
    omega

/-- Witness for `chunk_length_le_succ` at chunk_size 3, overlap 0, on the
    input `"aaaaa"`, whose first emitted chunk `"aaaa"` attains the
    `chunk_size + 1` bound. -/
theorem chunk_length_witness :
    ['a', 'a', 'a', 'a'] ∈ split_text ⟨3, 0, ['\n', '\n']⟩ ['a', 'a', 'a', 'a', 'a'] ∧
      (['a', 'a', 'a', 'a'] : List Char).length ≤ 3 + 1 :=
  ⟨by decide, chunk_length_le_succ ⟨3, 0, ['\n', '\n']⟩ ['a', 'a', 'a', 'a', 'a']
    (by decide) ['a', 'a', 'a', 'a'] (by decide)⟩

/-- Claim C6 is false as stated: a text no longer than `chunk_size` is
    returned whole by the short-circuit at the top of `split_text`, with
    no trimming and no emptiness check; `" a"` comes back untrimmed (and
    `""` comes back as a single empty chunk). -/
theorem chunk_trimmed_counterexample :
    (split_text defaultCfg [' ', 'a']).all
      (fun c => decide (strip c = c ∧ c ≠ [])) = false := by decide

/-- Claim C6 (amended): when the input text is strictly longer than
    `chunk_size` — so the windowed loop runs — every returned chunk is
    trimmed of leading and trailing whitespace and is non-empty; when
    `len(text) ≤ chunk_size` the single returned chunk is the raw text,
    untrimmed and possibly empty. -/
theorem chunk_trimmed_long_input (cfg : SplitCfg) (text : List Char)
    (h : cfg.chunkSize < text.length) :
    ∀ c ∈ split_text cfg text, strip c = c ∧ c ≠ [] := by
  intro c hc
  rw [split_text, if_neg (by omega), splitLoop] at hc
  obtain ⟨hne, s, rfl⟩ := mem_splitGo cfg text c _ _ hc
  exact ⟨strip_idem _, hne⟩

/-- Witness for `chunk_trimmed_long_input` on `"aaaaa"` with chunk_size 3:
    the chunk `"aaaa"` is returned trimmed and non-empty. -/
theorem chunk_trimmed_witness :
    strip ['a', 'a', 'a', 'a'] = ['a', 'a', 'a', 'a'] ∧
      (['a', 'a', 'a', 'a'] : List Char) ≠ [] :=
  chunk_trimmed_long_input ⟨3, 0, ['\n', '\n']⟩ ['a', 'a', 'a', 'a', 'a']
    (by decide) ['a', 'a', 'a', 'a'] (by decide)

/-- Claim C7: each iteration advances the window start to
    `max(previous_start + 1, cut_point - overlap)`, so the visited start
    positions increase strictly, and the loop terminates: giving its gas
    counter any bound past the text length leaves the result unchanged,
    i.e. the loop exits through its `start < len(text)` test and never
    consumes all gas.  On a long input `split_text` is exactly this
    loop. -/
theorem split_starts_strictly_increasing (cfg : SplitCfg) (text : List Char)
    (h : cfg.chunkSize < text.length) :
    List.Chain' (fun a b => b = max (a + 1) (cutEnd cfg text a - cfg.overlap) ∧ a < b)
      (splitStarts cfg text 0) ∧
    (∀ g, text.length ≤ g → splitGo cfg text g 0 = splitLoop cfg text 0) ∧
    split_text cfg text = splitLoop cfg text 0 := by
  refine ⟨startsGo_chain cfg text _ _, ?_, ?_⟩
  · intro g hg
    rw [splitLoop]
    exact splitGo_gas_stable cfg text g (text.length - 0) 0 (by omega) (by omega)
  · rw [split_text, if_neg (by omega)]

/-- Witness for `split_starts_strictly_increasing` at chunk_size 3,
    overlap 1, on `"aaaaa"`: the visited starts are `[0, 3]`. -/
theorem split_starts_witness :
    List.Chain'
      (fun a b => b = max (a + 1) (cutEnd ⟨3, 1, ['\n', '\n']⟩ ['a', 'a', 'a', 'a', 'a'] a - 1) ∧ a < b)
      (splitStarts ⟨3, 1, ['\n', '\n']⟩ ['a', 'a', 'a', 'a', 'a'] 0) ∧
    splitGo ⟨3, 1, ['\n', '\n']⟩ ['a', 'a', 'a', 'a', 'a'] 7 0 =
      splitLoop ⟨3, 1, ['\n', '\n']⟩ ['a', 'a', 'a', 'a', 'a'] 0 ∧
    split_text ⟨3, 1, ['\n', '\n']⟩ ['a', 'a', 'a', 'a', 'a'] =
      splitLoop ⟨3, 1, ['\n', '\n']⟩ ['a', 'a', 'a', 'a', 'a'] 0 :=
  have h := split_starts_strictly_increasing ⟨3, 1, ['\n', '\n']⟩
    ['a', 'a', 'a', 'a', 'a'] (by decide)
  ⟨h.1, h.2.1 7 (by decide), h.2.2⟩

/-- Claim C1: if the document and vector counts differ, or any vector has
    a length other than the index dimension, `add_documents` raises — the
    count check as an explicit `ValueError`, the dimension mismatch
    inside the FAISS `add` — and the raise happens before the store, the
    document map, either id-slot mapping or `next_index` is mutated, so
    the returned state equals the input state. -/
theorem add_documents_mismatch_leaves_state (s : VectorStore)
    (docs : List (String × DocRec)) (embs : List (List Rat))
    (h : docs.length ≠ embs.length ∨ ∃ e ∈ embs, e.length ≠ s.dimension) :
    (add_documents s docs embs).1.isSome = true ∧
      (add_documents s docs embs).2 = s := by
  rw [add_documents]
  by_cases hc : docs.length ≠ embs.length
  · rw [if_pos hc]
    exact ⟨rfl, rfl⟩
  · rw [if_neg hc]
    by_cases he : embs.isEmpty
    · rw [if_pos he]
      exact ⟨rfl, rfl⟩
    · rw [if_neg he]
      have hd : embs.any (fun e => decide (e.length ≠ s.dimension)) = true := by
        rcases h with h | ⟨e, he2, hne⟩
        · exact absurd h hc
        · exact List.any_eq_true.mpr ⟨e, he2, by simpa using hne⟩
      rw [if_pos hd]
      exact ⟨rfl, rfl⟩

/-- Witness for `add_documents_mismatch_leaves_state`: inserting one
    3-vector into an empty 2-dimensional store together with one document
    record fails and leaves the state untouched. -/
theorem add_documents_mismatch_witness :
    (add_documents (initState 2) [(("d1"), ⟨['x'], []⟩)]
        [[(1 : Rat), 2, 3]]).1.isSome = true ∧
      (add_documents (initState 2) [(("d1"), ⟨['x'], []⟩)]
        [[(1 : Rat), 2, 3]]).2 = initState 2 :=
  add_documents_mismatch_leaves_state (initState 2) [(("d1"), ⟨['x'], []⟩)]
    [[(1 : Rat), 2, 3]]
    (Or.inr ⟨[(1 : Rat), 2, 3], by decide, by decide⟩)

lemma dictGet?_dictDelete {κ ν : Type} [DecidableEq κ]
    (m : List (κ × ν)) (k : κ) : dictGet? (dictDelete m k) k = none := by
  induction m with
  | nil => rfl
  | cons p t ih =>
    by_cases hp : p.1 = k
    · simp only [dictDelete, List.filter_cons] at ih ⊢
      simp only [hp]
      simpa using ih
    · simp only [dictDelete, List.filter_cons] at ih ⊢
      have hp2 : decide (p.1 ≠ k) = true := by simpa using hp
      rw [hp2]
      simp only [if_true]
      simp only [dictGet?, List.find?_cons] at ih ⊢
      have hp3 : decide (p.1 = k) = false := by simpa using hp
      rw [hp3]
      exact ih

lemma delete_document_documents {s : VectorStore} {id : String}
    (h : (delete_document s id).1 = true) :
    (delete_document s id).2.documents = dictDelete s.documents id ∧
      (delete_document s id).2.store = s.store := by
  rw [delete_document] at *
  cases hd : dictGet? s.documents id with
  | none => rw [hd] at h; simp at h
  | some d =>
    dsimp only
    cases hi : dictGet? s.id_to_index id with
    | none => exact ⟨rfl, rfl⟩
    | some pos => exact ⟨rfl, rfl⟩

lemma mem_similarity_search {s : VectorStore} {q : List Rat} {k : Nat}
    {filterMd : List (String × String)} {hit : String × DocRec × Rat}
    (hmem : hit ∈ similarity_search s q k filterMd) :
    (dictGet? s.documents hit.1).isSome = true := by
  rw [similarity_search] at hmem
  split at hmem
  · simp at hmem
  · obtain ⟨c, _, hc⟩ := List.mem_filterMap.mp hmem
    cases hidx : dictGet? s.index_to_id c.1 with
    | none => rw [hidx] at hc; simp at hc
    | some docId =>
      rw [hidx] at hc
      dsimp only at hc
      split at hc
      · simp at hc
      · cases hdoc : dictGet? s.documents docId with
        | none => rw [hdoc] at hc; simp at hc
        | some doc =>
          rw [hdoc] at hc
          dsimp only at hc
          split at hc
          · simp at hc
          · simp only [Option.some_inj] at hc
            rw [← hc]
            simp [hdoc]

/-- Claim C3: after a `delete_document` call that returned `True`, the
    numeric store is untouched — the slot stays physically present, the
    store is neither shrunk nor renumbered — and no subsequent
    `similarity_search` on the resulting state, for any query, `k` and
    metadata filter, returns a hit carrying the deleted id, because every
    hit must still resolve through the `documents` map. -/
theorem delete_then_search_excludes_id (s : VectorStore) (id : String)
    (h : (delete_document s id).1 = true) :
    (delete_document s id).2.store = s.store ∧
      ∀ q k filterMd hit,
        hit ∈ similarity_search (delete_document s id).2 q k filterMd →
          hit.1 ≠ id := by
  obtain ⟨hdocs, hstore⟩ := delete_document_documents h
  refine ⟨hstore, ?_⟩
  intro q k filterMd hit hmem heq
  have hsome := mem_similarity_search hmem
  rw [heq, hdocs, dictGet?_dictDelete] at hsome
  simp at hsome

/-- A one-document store used to instantiate `delete_then_search_excludes_id`. -/
def sampleStore : VectorStore :=
  ⟨2, [[(1 : Rat), 2]], [(("doc1"), ⟨['h'], []⟩)], [(("doc1"), 0)], [(0, ("doc1"))], 1⟩

/-- Witness for `delete_then_search_excludes_id`: deleting the only
    document of `sampleStore` succeeds, keeps the numeric store intact,
    and a subsequent search cannot return a hit with the deleted id. -/
theorem delete_then_search_witness :
    (delete_document sampleStore ("doc1")).2.store = sampleStore.store ∧
      ¬ ((("doc1"), (⟨['h'], []⟩ : DocRec), (0 : Rat)) ∈
          similarity_search (delete_document sampleStore ("doc1")).2
            [(1 : Rat), 2] 1 []) :=
  ⟨(delete_then_search_excludes_id sampleStore ("doc1") (by decide)).1,
   fun hmem =>
     (delete_then_search_excludes_id sampleStore ("doc1") (by decide)).2
       [(1 : Rat), 2] 1 [] ((("doc1"), (⟨['h'], []⟩ : DocRec), (0 : Rat))) hmem rfl⟩

/-- Claim C4 is false as stated on two counts.  With both artifacts
    missing, `load_index` skips the whole body — no exception, but also
    no warning is logged, while the claim requires one.  With a readable
    one-vector index file and an unreadable metadata pickle, the warning
    is logged but the already-loaded numeric store is kept: one slot
    remains, while the claim requires zero slots. -/
theorem load_index_claim_counterexample :
    (load_index ⟨Artifact.missing, Artifact.missing⟩ (initState 4)).2 = false ∧
      (load_index ⟨Artifact.ok [[(1 : Rat)]], Artifact.corrupt⟩
        (initState 4)).1.store.length = 1 := by decide

/-- Claim C4 (amended): loading never lets an exception escape, and on a
    freshly constructed store: if either artifact is missing, loading is
    a silent no-op — the state stays exactly as initialized (empty) and
    no warning is logged; if both artifacts exist but the index file is
    unreadable, a warning is logged and the state is unchanged; if the
    index file is readable but the metadata pickle is not, a warning is
    logged and the loader stops partway, leaving the freshly read numeric
    store (possibly non-zero slots) with the document and mapping state
    still empty. -/
theorem load_index_graceful_degrade (fs : FS) (d : Nat) :
    ((fs.indexFile = Artifact.missing ∨ fs.metaFile = Artifact.missing) →
       load_index fs (initState d) = (initState d, false)) ∧
    (fs.indexFile = Artifact.corrupt → fs.metaFile ≠ Artifact.missing →
       load_index fs (initState d) = (initState d, true)) ∧
    (∀ idx, fs.indexFile = Artifact.ok idx → fs.metaFile = Artifact.corrupt →
       load_index fs (initState d) =
         ({ initState d with store := idx }, true)) := by
  obtain ⟨fi, fm⟩ := fs
  refine ⟨?_, ?_, ?_⟩
  · rintro (h | h)
    · subst h
      cases fm <;> rfl
    · subst h
      cases fi <;> rfl
  · rintro h hm
    subst h
    cases fm with
    | missing => exact absurd rfl hm
    | corrupt => rfl
    | ok md => rfl
  · rintro idx h hm
    subst h
    subst hm
    rfl

/-- Witness for `load_index_graceful_degrade`: with both artifacts
    missing, a fresh 3-dimensional store loads to itself with no
    warning. -/
theorem load_index_graceful_witness :
    load_index ⟨Artifact.missing, Artifact.missing⟩ (initState 3) =
      (initState 3, false) :=
  (load_index_graceful_degrade ⟨Artifact.missing, Artifact.missing⟩ 3).1
    (Or.inl rfl)


/-- Claim C2 is false as stated for empty input: chunking the empty text
    takes the `len(text) <= chunk_size` short-circuit and yields one
    blank chunk, not zero chunks, so `add_text_content` of `""` does not
    raise — it silently succeeds and hands the single blank chunk to the
    vector store. -/
theorem ingest_empty_counterexample :
    add_text_content defaultCfg [] = Except.ok [[]] := rfl

lemma rfind_ge {text sub : List Char} {s e i : Nat}
    (h : rfind text sub s e = some i) : s ≤ i := by
  have hm := mem_getLast? h
  rw [List.mem_filter] at hm
  have h2 := hm.2
  simp only [Bool.and_eq_true, decide_eq_true_eq] at h2
  exact h2.1.1

lemma cutEnd_ge (cfg : SplitCfg) (text : List Char) (start : Nat)
    (h : start < text.length) : start + 1 ≤ cutEnd cfg text start := by
  rw [cutEnd]
  by_cases h0 : start + cfg.chunkSize < text.length
  · rw [if_pos h0]
    cases h1 : rfind text cfg.sep start (start + cfg.chunkSize) with
    | some bp => dsimp only; have := rfind_ge h1; omega
    | none =>
      dsimp only
      cases h2 : rfind text ['.'] start (start + cfg.chunkSize) with
      | some bp => dsimp only; have := rfind_ge h2; omega
      | none =>
        dsimp only
        cases h3 : rfind text [' '] start (start + cfg.chunkSize) with
        | some bp => dsimp only; have := rfind_ge h3; omega
        | none => dsimp only; omega
  · rw [if_neg h0]; omega

lemma mem_dropWhile_of_mem {α : Type} {p : α → Bool} {c : α} {l : List α}
    (hc : c ∈ l) (hpc : p c = false) : c ∈ l.dropWhile p := by
  induction l with
  | nil => cases hc
  | cons a t ih =>
    cases hpa : p a with
    | true =>
      rw [List.dropWhile_cons, if_pos hpa]
      rcases List.mem_cons.mp hc with rfl | h
      · rw [hpa] at hpc; cases hpc
      · exact ih h
    | false =>
      rw [List.dropWhile_cons, if_neg (by simp [hpa])]
      exact hc

lemma strip_ne_nil_of_mem {c : Char} {l : List Char} (hc : c ∈ l)
    (hpc : pyIsSpace c = false) : strip l ≠ [] := by
  have h1 : c ∈ lstrip l := mem_dropWhile_of_mem hc hpc
  have h2 : c ∈ (lstrip l).reverse := List.mem_reverse.mpr h1
  have h3 : c ∈ (lstrip l).reverse.dropWhile pyIsSpace :=
    mem_dropWhile_of_mem h2 hpc
  have h4 : c ∈ strip l := by
    rw [strip, rstrip]
    exact List.mem_reverse.mpr h3
  exact List.ne_nil_of_mem h4

lemma get_mem_slice {text : List Char} {start e p : Nat} (hsp : start ≤ p)
    (hpe : p < e) (hp : p < text.length) :
    text.get ⟨p, hp⟩ ∈ (text.drop start).take (e - start) := by
  have hlen : p - start < ((text.drop start).take (e - start)).length := by
    rw [List.length_take, List.length_drop]
    omega
  have h1 : ((text.drop start).take (e - start)).get ⟨p - start, hlen⟩ =
      text.get ⟨p, hp⟩ := by
    simp only [List.get_eq_getElem, List.getElem_take, List.getElem_drop]
    congr 1
    omega
  rw [← h1]
  exact List.get_mem _ _ _

/-- If some character of the text is not whitespace, the chunking loop
    emits at least one chunk: successive windows `[start, cutEnd)` cover
    the whole remaining text because the next start never jumps past the
    current cut, and a window containing a non-space character survives
    the strip-and-drop filter. -/
lemma splitGo_ne_nil (cfg : SplitCfg) (text : List Char)
    {p : Nat} (hp : p < text.length)
    (hps : pyIsSpace (text.get ⟨p, hp⟩) = false) :
    ∀ gas start, start ≤ p → text.length - start ≤ gas →
      splitGo cfg text gas start ≠ [] := by
  intro gas
  induction gas with
  | zero => intro start hsp hg; omega
  | succ g ih =>
    intro start hsp hg
    have hs : start < text.length := by omega
    simp only [splitGo]
    rw [if_pos hs]
    by_cases hpe : p < cutEnd cfg text start
    · have hmem : text.get ⟨p, hp⟩ ∈
          (text.drop start).take (cutEnd cfg text start - start) :=
        get_mem_slice hsp hpe hp
      have hchunk := strip_ne_nil_of_mem hmem hps
      rw [if_neg hchunk]
      exact List.cons_ne_nil _ _
    · have hce := cutEnd_ge cfg text start hs
      have hnext_le : nextStart cfg text start ≤ p := by
        rw [nextStart]; omega
      have hnext_gt : start + 1 ≤ nextStart cfg text start := le_max_left _ _
      have hrest := ih (nextStart cfg text start) hnext_le (by omega)
      by_cases hc : strip ((text.drop start).take (cutEnd cfg text start - start)) = []
      · rw [if_pos hc]; exact hrest
      · rw [if_neg hc]; exact List.cons_ne_nil _ _

/-- Claim C2 (amended): an ingest fails with the empty-content error
    exactly when chunking yields zero chunks; chunking yields zero
    chunks only for whitespace-only text strictly longer than
    `chunk_size`; and any input no longer than `chunk_size` — in
    particular empty or whitespace-only input — yields the single raw
    chunk `[content]` and is silently accepted, blank chunk included. -/
theorem ingest_empty_iff_no_chunks (cfg : SplitCfg) (content : List Char) :
    (add_text_content cfg content = Except.error IngestError.emptyContent ↔
       split_text cfg content = []) ∧
    (content.length ≤ cfg.chunkSize →
       add_text_content cfg content = Except.ok [content]) ∧
    (split_text cfg content = [] →
       cfg.chunkSize < content.length ∧ ∀ c ∈ content, pyIsSpace c = true) := by
  refine ⟨?_, ?_, ?_⟩
  · rw [add_text_content]
    by_cases h : (process_text_content cfg content).isEmpty
    · rw [if_pos h]
      rw [List.isEmpty_iff] at h
      simp only [process_text_content] at h
      simp [h]
    · rw [if_neg h]
      rw [List.isEmpty_iff] at h
      simp only [process_text_content] at h
      simp [h]
  · intro h
    rw [add_text_content]
    have hs : process_text_content cfg content = [content] := by
      rw [process_text_content, split_text, if_pos h]
    rw [hs]
    rfl
  · intro hnil
    have hlong : cfg.chunkSize < content.length := by
      by_contra hle
      rw [split_text, if_pos (by omega)] at hnil
      cases hnil
    refine ⟨hlong, ?_⟩
    intro c hc
    by_contra hws
    have hws2 : pyIsSpace c = false := by
      cases hval : pyIsSpace c with
      | false => rfl
      | true => exact absurd hval hws
    obtain ⟨⟨i, hi⟩, hgi⟩ := List.get_of_mem hc
    have hps : pyIsSpace (content.get ⟨i, hi⟩) = false := by
      rw [hgi]; exact hws2
    rw [split_text, if_neg (by omega), splitLoop] at hnil
    exact splitGo_ne_nil cfg content hi hps (content.length - 0) 0
      (by omega) (by omega) hnil

/-- Witness for `ingest_empty_iff_no_chunks`: ingesting the one-space
    text succeeds with the single untrimmed blank chunk. -/
theorem ingest_empty_witness :
    add_text_content defaultCfg [' '] = Except.ok [[' ']] :=
  (ingest_empty_iff_no_chunks defaultCfg [' ']).2.1 (by decide)

lemma elidedBlock_cons (maxLen : Nat) (c : List Char) (sc : Rat)
    (rest : List (List Char × Rat)) (n i total : Nat) :
    elidedBlock maxLen ((c, sc) :: rest) (n + 1) i total =
      elidedBlock maxLen rest n (i + 1) (total + c.length) := by
  cases hd : rest.drop n with
  | nil => simp only [elidedBlock, List.drop_succ_cons, hd]
  | cons p t =>
    simp only [elidedBlock, List.drop_succ_cons, hd, List.take_succ_cons,
      usedLen, List.map_cons, List.sum_cons]
    generalize (List.map (fun h => h.1.length) (List.take n rest)).sum = u
    have hcond : total + (c.length + u) = total + c.length + u := by omega
    have hidx : i + (n + 1) = i + 1 + n := by omega
    rw [hcond, hidx]

lemma assembleCore_characterization (maxLen : Nat) :
    ∀ (hits : List (List Char × Rat)) (i total : Nat),
      assembleCore maxLen hits i total =
        (mkBlocks (hits.take (numFullAux maxLen hits total)) i ++
           elidedBlock maxLen hits (numFullAux maxLen hits total) i total,
         mkSources (hits.take (numFullAux maxLen hits total)) i) := by
  intro hits
  induction hits with
  | nil => intro i total; rfl
  | cons h rest ih =>
    intro i total
    obtain ⟨c, sc⟩ := h
    by_cases ho : maxLen < total + c.length
    · have hn : numFullAux maxLen ((c, sc) :: rest) total = 0 := by
        rw [numFullAux, if_pos ho]
      rw [assembleCore, if_pos ho, hn]
      simp only [List.take_zero, mkBlocks, mkSources, List.nil_append]
      simp only [elidedBlock, List.drop_zero, List.take_zero, usedLen,
        List.map_nil, List.sum_nil, Nat.add_zero]
      by_cases h100 : 100 < maxLen - total
      · rw [if_pos h100, if_pos h100]
      · rw [if_neg h100, if_neg h100]
    · have hn : numFullAux maxLen ((c, sc) :: rest) total =
          numFullAux maxLen rest (total + c.length) + 1 := by
        rw [numFullAux, if_neg ho]
      rw [assembleCore, if_neg ho, hn]
      dsimp only
      rw [ih (i + 1) (total + c.length)]
      simp only [List.take_succ_cons, mkBlocks, mkSources, List.cons_append]
      rw [elidedBlock_cons]

/-- Claim C8: the source list of `assemble` consists of exactly the
    greedy prefix of hits whose full contents fit the budget — a hit is
    recorded as a source if and only if its full content became a block —
    while the context blocks are those full blocks followed by at most
    one truncated, ellipsis-marked block, present only when a further hit
    exists and the remaining budget exceeds 100 characters; nothing
    after the truncated block is processed. -/
theorem assemble_sources_exactly_full_hits (hits : List (List Char × Rat))
    (maxLen : Nat) :
    assembleCore maxLen hits 0 0 =
      (mkBlocks (hits.take (numFull maxLen hits)) 0 ++
         elidedBlock maxLen hits (numFull maxLen hits) 0 0,
       mkSources (hits.take (numFull maxLen hits)) 0) ∧
    (assemble hits maxLen).2 = mkSources (hits.take (numFull maxLen hits)) 0 := by
  constructor
  · exact assembleCore_characterization maxLen hits 0 0
  · show (assembleCore maxLen hits 0 0).2 = _
    rw [assembleCore_characterization maxLen hits 0 0]
    rfl

/-- Claim C9 is false as stated: a hit with empty content costs nothing
    against the budget, so even with `max_context_length = 0` it is fully
    included — the context is the bare label block and the source list is
    non-empty.  (Such hits are producible: ingesting the empty text
    stores exactly one blank chunk, see `ingest_empty_counterexample`.) -/
theorem assemble_zero_budget_counterexample :
    assemble [([], (0 : Rat))] 0 =
      (("[Document 1]: ".data), [([], (0 : Rat), 1)]) := rfl

/-- Claim C9 (amended): for every hit sequence in which each content is
    non-empty — including non-empty sequences — `assemble` with budget 0
    returns the empty context and no sources. -/
theorem assemble_zero_budget_nonempty_contents (hits : List (List Char × Rat))
    (h : ∀ p ∈ hits, p.1 ≠ []) :
    assemble hits 0 = ([], []) := by
  cases hits with
  | nil => rfl
  | cons p rest =>
    obtain ⟨c, sc⟩ := p
    have hc : c ≠ [] := h (c, sc) (List.mem_cons_self _ _)
    have hlen : 0 < c.length := List.length_pos.mpr hc
    have hcore : assembleCore 0 ((c, sc) :: rest) 0 0 = ([], []) := by
      rw [assembleCore, if_pos (by omega : (0 : Nat) < 0 + c.length)]
      dsimp only
      rw [if_neg (by omega : ¬ (100 : Nat) < 0 - 0)]
    rw [assemble]
    dsimp only
    rw [hcore]
    rfl

/-- Witness for `assemble_zero_budget_nonempty_contents`: one non-empty
    hit, budget 0, empty result. -/
theorem assemble_zero_budget_witness :
    assemble [(['a'], (1 : Rat))] 0 = ([], []) :=
  assemble_zero_budget_nonempty_contents [(['a'], (1 : Rat))] (by decide)

/-- Claim C10: `retrieve_context` wraps the embedding and search steps in
    a `try` whose handler returns `("", [])`, so a failing search
    propagates no exception and yields the empty context and empty source
    list; the embedded function is total, so no other escape exists. -/
theorem retrieve_context_error_swallowed (e : String) (maxLen : Nat) :
    retrieve_context (Except.error e) maxLen = ([], []) := rfl
